import Mathlib

/-!
Shallow embedding of the MarketAlgoX IBD rating pipeline.

Python numeric values are modelled as exact rationals (`ℚ`).  Python's
`round(x, 2)` is modelled with Mathlib's `round` (round-half-up on `ℚ`);
every concrete input used in a theorem below stays away from exact
half-ties, where binary floating point makes the Python result depend on
the binary representation anyway.

Python dictionaries are modelled as association lists in insertion order
(keys are unique); `sorted` with a key function is modelled with the
stable `List.mergeSort` from the core library, matching CPython's stable
Timsort.
-/

set_option maxHeartbeats 1000000
set_option maxRecDepth 4000

namespace MarketAlgoX

/-- Python `round(q, 2)`: round to the nearest multiple of 1/100. -/
def round2 (q : ℚ) : ℚ := ((round (q * 100) : ℤ) : ℚ) / 100

/-- A value stored in a `{ticker: value}` dictionary handed to the ratings
calculator: `None`, `NaN`, or an actual number. -/
inductive PyNum where
  | null : PyNum
  | nan : PyNum
  | num : ℚ → PyNum
deriving DecidableEq, Repr

/-- The filter on the first line of `calculate_percentile_ranking`
(`ibd_ratings_calculator.py`): drop entries whose value is `None` or `NaN`. -/
def validEntries {α : Type} (values_dict : List (α × PyNum)) : List (α × ℚ) :=
  values_dict.filterMap (fun p =>
    match p.2 with
    | PyNum.num q => some (p.1, q)
    | _ => none)

/-- The comparison key used by `sorted(valid_values.items(), key=lambda x: x[1])`. -/
def leVal {α : Type} (a b : α × ℚ) : Bool := decide (a.2 ≤ b.2)

/-- `IBDRatingsCalculator.calculate_percentile_ranking`
(`ibd_ratings_calculator.py`, lines 32-60): drop `None`/`NaN` values, sort by
value ascending (stable), and assign each ticker
`round(((idx + 1) / total) * 100, 2)`. -/
def calculate_percentile_ranking {α : Type} (values_dict : List (α × PyNum)) :
    List (α × ℚ) :=
  let valid_values := validEntries values_dict
  if valid_values.isEmpty then []
  else
    let sorted_tickers := valid_values.mergeSort leVal
    let total := sorted_tickers.length
    sorted_tickers.enum.map
      (fun p => (p.2.1, round2 (((p.1 : ℚ) + 1) / (total : ℚ) * 100)))

theorem leVal_trans {α : Type} (a b c : α × ℚ) :
    leVal a b → leVal b c → leVal a c := by
  simp only [leVal, decide_eq_true_eq]
  exact le_trans

theorem leVal_total {α : Type} (a b : α × ℚ) : leVal a b || leVal b a := by
  simp only [leVal, Bool.or_eq_true, decide_eq_true_eq]
  exact le_total a.2 b.2

theorem round2_le_round2 {a b : ℚ} (h : a ≤ b) : round2 a ≤ round2 b := by
  unfold round2
  have key : round (a * 100) ≤ round (b * 100) := by
    rw [round_eq, round_eq]
    exact Int.floor_le_floor (by nlinarith)
  have key2 : ((round (a * 100) : ℤ) : ℚ) ≤ ((round (b * 100) : ℤ) : ℚ) := by
    exact_mod_cast key
  linarith

theorem round2_strict {a b : ℚ} (h : a + 1 / 100 ≤ b) : round2 a < round2 b := by
  unfold round2
  have key : round (a * 100) + 1 ≤ round (b * 100) := by
    rw [round_eq, round_eq]
    have h1 : a * 100 + 1 / 2 + 1 ≤ b * 100 + 1 / 2 := by nlinarith
    calc ⌊a * 100 + 1 / 2⌋ + 1 = ⌊a * 100 + 1 / 2 + 1⌋ := by
            rw [Int.floor_add_one]
      _ ≤ ⌊b * 100 + 1 / 2⌋ := Int.floor_le_floor h1
  have key2 : ((round (a * 100) : ℤ) : ℚ) + 1 ≤ ((round (b * 100) : ℤ) : ℚ) := by
    exact_mod_cast key
  linarith

theorem round2_hundred : round2 (100 : ℚ) = 100 := by
  unfold round2
  have : (100 : ℚ) * 100 = ((10000 : ℤ) : ℚ) := by norm_num
  rw [this, round_intCast]
  norm_num

theorem round2_pos {a : ℚ} (h : 1 / 100 ≤ a) : 0 < round2 a := by
  have := round2_strict (a := 0) (b := a) (by linarith)
  rw [show round2 0 = 0 by unfold round2; norm_num] at this
  exact this

theorem round2_le_hundred {a : ℚ} (h : a ≤ 100) : round2 a ≤ 100 := by
  have := round2_le_round2 h
  rw [round2_hundred] at this
  exact this

theorem isEmpty_false_of_ne_nil {β : Type} {l : List β} (h : l ≠ []) :
    l.isEmpty = false := by
  cases l with
  | nil => exact absurd rfl h
  | cons a t => rfl

theorem sorted_perm_unique {α : Type} :
    ∀ {l₁ l₂ : List (α × ℚ)}, l₁.Perm l₂ →
      l₁.Pairwise (fun a b => leVal a b) → l₂.Pairwise (fun a b => leVal a b) →
      (l₁.map Prod.snd).Nodup → l₁ = l₂
  | [], l₂, hp, _, _, _ => (List.Perm.nil_eq hp).symm ▸ rfl
  | a :: t₁, [], hp, _, _, _ => absurd hp.symm (by simp)
  | a :: t₁, b :: t₂, hp, hs₁, hs₂, hnd => by
    have hab : a = b := by
      by_contra hab
      have ha2 : a ∈ b :: t₂ := hp.mem_iff.1 (List.mem_cons_self a t₁)
      have ha3 : a ∈ t₂ := by
        rcases List.mem_cons.1 ha2 with h | h
        · exact absurd h hab
        · exact h
      have hb2 : b ∈ a :: t₁ := hp.symm.mem_iff.1 (List.mem_cons_self b t₂)
      have hb3 : b ∈ t₁ := by
        rcases List.mem_cons.1 hb2 with h | h
        · exact absurd h.symm hab
        · exact h
      have h1 : leVal a b := List.rel_of_pairwise_cons hs₁ hb3
      have h2 : leVal b a := List.rel_of_pairwise_cons hs₂ ha3
      have hval : a.2 = b.2 := by
        simp only [leVal, decide_eq_true_eq] at h1 h2
        exact le_antisymm h1 h2
      exact hab (List.inj_on_of_nodup_map hnd (List.mem_cons_self a t₁) hb2 hval)
    subst hab
    have ht : t₁.Perm t₂ := hp.cons_inv
    have htl := sorted_perm_unique ht hs₁.tail hs₂.tail
      (by
        have h2 : (List.map Prod.snd (a :: t₁)).Nodup := hnd
        simp only [List.map_cons, List.nodup_cons] at h2
        exact h2.2)
    rw [htl]

theorem ranking_eq {α : Type} (l : List (α × PyNum))
    (h : (validEntries l).isEmpty = false) :
    calculate_percentile_ranking l =
      ((validEntries l).mergeSort leVal).enum.map
        (fun p => (p.2.1,
          round2 (((p.1 : ℚ) + 1) / (((validEntries l).length : ℕ) : ℚ) * 100))) := by
  unfold calculate_percentile_ranking
  simp only [h, Bool.false_eq_true, if_false, List.length_mergeSort]

theorem mem_ranking_iff {α : Type} {l : List (α × PyNum)}
    (h : (validEntries l).isEmpty = false) {p : α × ℚ} :
    p ∈ calculate_percentile_ranking l ↔
      ∃ (i : ℕ) (hi : i < ((validEntries l).mergeSort leVal).length),
        p = ((((validEntries l).mergeSort leVal).get ⟨i, hi⟩).1,
             round2 (((i : ℚ) + 1) / (((validEntries l).length : ℕ) : ℚ) * 100)) := by
  rw [ranking_eq l h]
  constructor
  · intro hp
    rcases List.mem_map.1 hp with ⟨q, hq, rfl⟩
    rcases List.mem_iff_getElem.1 hq with ⟨i, hi, rfl⟩
    have hi2 : i < ((validEntries l).mergeSort leVal).length := by
      simpa using hi
    refine ⟨i, hi2, ?_⟩
    rw [List.getElem_enum]
    simp [List.get_eq_getElem]
  · rintro ⟨i, hi, rfl⟩
    have hi2 : i < ((validEntries l).mergeSort leVal).enum.length := by
      simpa using hi
    refine List.mem_map.2 ⟨((validEntries l).mergeSort leVal).enum.get ⟨i, hi2⟩, List.get_mem _ _ _, ?_⟩
    simp only [List.get_eq_getElem, List.getElem_enum]

theorem perc_pos_le {i n : ℕ} (hi : i < n) (hn : n ≤ 10000) :
    0 < round2 (((i : ℚ) + 1) / (n : ℚ) * 100) ∧
      round2 (((i : ℚ) + 1) / (n : ℚ) * 100) ≤ 100 := by
  have hn0 : (0 : ℚ) < n := by exact_mod_cast Nat.pos_of_ne_zero (by omega)
  have hn1 : (n : ℚ) ≤ 10000 := by exact_mod_cast hn
  have hi1 : (i : ℚ) + 1 ≤ n := by exact_mod_cast hi
  have hi0 : (0 : ℚ) ≤ i := by positivity
  constructor
  · apply round2_pos
    rw [div_mul_eq_mul_div, le_div_iff hn0]
    nlinarith
  · apply round2_le_hundred
    rw [div_mul_eq_mul_div, div_le_iff hn0]
    nlinarith

theorem perc_strict_mono {i j n : ℕ} (hij : i < j) (hj : j < n) (hn : n ≤ 10000) :
    round2 (((i : ℚ) + 1) / (n : ℚ) * 100) <
      round2 (((j : ℚ) + 1) / (n : ℚ) * 100) := by
  have hn0 : (0 : ℚ) < n := by exact_mod_cast Nat.pos_of_ne_zero (by omega)
  have hn1 : (n : ℚ) ≤ 10000 := by exact_mod_cast hn
  have hij1 : (i : ℚ) + 1 ≤ j := by exact_mod_cast hij
  apply round2_strict
  have hfrac : (1 : ℚ) / 100 ≤ 100 / (n : ℚ) := by
    rw [div_le_div_iff (by norm_num) hn0]
    nlinarith
  have hmono : ((i : ℚ) + 1) * 100 / n + 100 / n ≤ ((j : ℚ) + 1) * 100 / n := by
    rw [div_add_div_same, div_le_div_iff hn0 hn0]
    nlinarith
  rw [div_mul_eq_mul_div, div_mul_eq_mul_div]
  linarith

theorem key_index_inj {α β : Type} {s : List (α × β)}
    (h : (s.map Prod.fst).Nodup) {i j : ℕ}
    (hi : i < s.length) (hj : j < s.length)
    (heq : (s.get ⟨i, hi⟩).1 = (s.get ⟨j, hj⟩).1) : i = j := by
  have hi2 : i < (s.map Prod.fst).length := by simpa using hi
  have hj2 : j < (s.map Prod.fst).length := by simpa using hj
  have : (s.map Prod.fst).get ⟨i, hi2⟩ = (s.map Prod.fst).get ⟨j, hj2⟩ := by
    simpa using heq
  simp only [List.get_eq_getElem] at this
  exact (h.getElem_inj_iff).1 this

/-- Claim C1, amended: for a valid-entry count of at most 10000 (where the
two-decimal rounding cannot collapse adjacent ranks or round the lowest rank
down to zero), the rounded percentiles strictly increase with value, lie in
`(0, 100]`, and the maximum value receives exactly 100. -/
theorem percentile_ranking_amended {α : Type} (l : List (α × PyNum))
    (hne : validEntries l ≠ [])
    (hsize : (validEntries l).length ≤ 10000)
    (hkeys : ((validEntries l).map Prod.fst).Nodup)
    (hvals : ((validEntries l).map Prod.snd).Nodup) :
    (∀ p ∈ calculate_percentile_ranking l, 0 < p.2 ∧ p.2 ≤ 100) ∧
    (∀ a b va vb pa pb, (a, va) ∈ validEntries l → (b, vb) ∈ validEntries l →
        (a, pa) ∈ calculate_percentile_ranking l →
        (b, pb) ∈ calculate_percentile_ranking l → va < vb → pa < pb) ∧
    (∀ a va, (a, va) ∈ validEntries l → (∀ q ∈ validEntries l, q.2 ≤ va) →
        (a, (100 : ℚ)) ∈ calculate_percentile_ranking l) := by
  have hemp : (validEntries l).isEmpty = false := by
    simpa [List.isEmpty_iff] using hne
  have hperm : ((validEntries l).mergeSort leVal).Perm (validEntries l) :=
    List.mergeSort_perm (validEntries l) leVal
  have hsort : ((validEntries l).mergeSort leVal).Pairwise (fun a b => leVal a b) :=
    List.sorted_mergeSort leVal_trans leVal_total (validEntries l)
  have hlen : ((validEntries l).mergeSort leVal).length = (validEntries l).length :=
    hperm.length_eq
  have hkeys2 : (((validEntries l).mergeSort leVal).map Prod.fst).Nodup :=
    ((hperm.map Prod.fst).nodup_iff).2 hkeys
  have hvals2 : (((validEntries l).mergeSort leVal).map Prod.snd).Nodup :=
    ((hperm.map Prod.snd).nodup_iff).2 hvals
  have hnpos : 0 < (validEntries l).length := List.length_pos.2 hne
  refine ⟨?_, ?_, ?_⟩
  · -- every output percentile is in (0, 100]
    intro p hp
    rcases (mem_ranking_iff hemp).1 hp with ⟨i, hi, rfl⟩
    have hi2 : i < (validEntries l).length := hlen ▸ hi
    exact perc_pos_le hi2 hsize
  · -- percentiles strictly increase with value
    intro a b va vb pa pb hva hvb hpa hpb hlt
    rcases (mem_ranking_iff hemp).1 hpa with ⟨i, hi, hpa'⟩
    rcases (mem_ranking_iff hemp).1 hpb with ⟨j, hj, hpb'⟩
    rcases List.mem_iff_getElem.1 (hperm.mem_iff.2 hva) with ⟨i', hi', hgi⟩
    rcases List.mem_iff_getElem.1 (hperm.mem_iff.2 hvb) with ⟨j', hj', hgj⟩
    have hii : i = i' := by
      apply key_index_inj hkeys2 hi hi'
      have := congrArg Prod.fst hpa'
      simp only [List.get_eq_getElem] at this ⊢
      rw [hgi]
      exact this.symm ▸ rfl
    have hjj : j = j' := by
      apply key_index_inj hkeys2 hj hj'
      have := congrArg Prod.fst hpb'
      simp only [List.get_eq_getElem] at this ⊢
      rw [hgj]
      exact this.symm ▸ rfl
    subst hii hjj
    have hva2 : (((validEntries l).mergeSort leVal).get ⟨i, hi⟩).2 = va := by
      simp only [List.get_eq_getElem]
      rw [hgi]
    have hvb2 : (((validEntries l).mergeSort leVal).get ⟨j, hj⟩).2 = vb := by
      simp only [List.get_eq_getElem]
      rw [hgj]
    have hij : i < j := by
      rcases lt_trichotomy i j with h | h | h
      · exact h
      · exfalso
        subst h
        rw [hva2] at hvb2
        exact absurd hvb2 (ne_of_gt hlt).symm
      · exfalso
        have hpw := (List.pairwise_iff_getElem.1 hsort) j i hj hi h
        simp only [leVal, decide_eq_true_eq] at hpw
        rw [hgi, hgj] at hpw
        exact absurd hpw (not_le.2 hlt)
    have hpa2 : pa = round2 (((i : ℚ) + 1) / ((validEntries l).length : ℚ) * 100) :=
      congrArg Prod.snd hpa'
    have hpb2 : pb = round2 (((j : ℚ) + 1) / ((validEntries l).length : ℚ) * 100) :=
      congrArg Prod.snd hpb'
    rw [hpa2, hpb2]
    exact perc_strict_mono hij (hlen ▸ hj) hsize
  · -- the maximum value receives exactly 100
    intro a va hva hmax
    rcases List.mem_iff_getElem.1 (hperm.mem_iff.2 hva) with ⟨j, hj, hgj⟩
    have hjlast : j = ((validEntries l).mergeSort leVal).length - 1 := by
      by_contra hne2
      have hjlt : j < ((validEntries l).mergeSort leVal).length - 1 := by omega
      have hlast : ((validEntries l).mergeSort leVal).length - 1 <
          ((validEntries l).mergeSort leVal).length := by omega
      have hmem : ((validEntries l).mergeSort leVal).get
          ⟨((validEntries l).mergeSort leVal).length - 1, hlast⟩ ∈ validEntries l := by
        exact hperm.mem_iff.1 (List.get_mem _ _ _)
      have hle1 : (((validEntries l).mergeSort leVal).get
          ⟨((validEntries l).mergeSort leVal).length - 1, hlast⟩).2 ≤ va :=
        hmax _ hmem
      have hle2 := (List.pairwise_iff_getElem.1 hsort) j
        (((validEntries l).mergeSort leVal).length - 1) hj hlast hjlt
      simp only [leVal, decide_eq_true_eq] at hle2
      rw [hgj] at hle2
      simp only [List.get_eq_getElem] at hle1
      have hveq : (((validEntries l).mergeSort leVal).get
          ⟨((validEntries l).mergeSort leVal).length - 1, hlast⟩).2 = va :=
        le_antisymm hle1 hle2
      have heq : ((validEntries l).mergeSort leVal).get
          ⟨((validEntries l).mergeSort leVal).length - 1, hlast⟩ =
          ((validEntries l).mergeSort leVal).get ⟨j, hj⟩ := by
        apply List.inj_on_of_nodup_map hvals2 (List.get_mem _ _ _) (List.get_mem _ _ _)
        rw [hveq]
        simp only [List.get_eq_getElem]
        rw [hgj]
      have hnd : ((validEntries l).mergeSort leVal).Nodup :=
        List.Nodup.of_map Prod.snd hvals2
      have := key_index_inj hkeys2 hlast hj (congrArg Prod.fst heq)
      omega
    subst hjlast
    apply (mem_ranking_iff hemp).2
    refine ⟨((validEntries l).mergeSort leVal).length - 1, hj, ?_⟩
    have h1 : (((validEntries l).mergeSort leVal).get
        ⟨((validEntries l).mergeSort leVal).length - 1, hj⟩).1 = a := by
      simp only [List.get_eq_getElem]
      rw [hgj]
    have hcast : ((((validEntries l).mergeSort leVal).length - 1 : ℕ) : ℚ) + 1 =
        (((validEntries l).length : ℕ) : ℚ) := by
      rw [hlen, Nat.cast_sub hnpos]
      push_cast
      ring
    have h2 : round2 ((((((validEntries l).mergeSort leVal).length - 1 : ℕ) : ℚ) + 1) /
        (((validEntries l).length : ℕ) : ℚ) * 100) = 100 := by
      rw [hcast, div_self (by exact_mod_cast hnpos.ne'), one_mul]
      exact round2_hundred
    exact Prod.ext_iff.2 ⟨h1.symm, h2.symm⟩

/-- A canonical dictionary: instruments `0, …, n-1` with strictly increasing
numeric values `0, …, n-1`. -/
def canonInput (n : ℕ) : List (ℕ × PyNum) :=
  (List.range n).map (fun i => (i, PyNum.num (i : ℚ)))

theorem validEntries_canon (n : ℕ) :
    validEntries (canonInput n) = (List.range n).map (fun i : ℕ => (i, (i : ℚ))) := by
  unfold validEntries canonInput
  rw [List.filterMap_map]
  exact congrFun (List.filterMap_eq_map _) _

theorem canon_sorted (n : ℕ) :
    ((List.range n).map (fun i : ℕ => (i, (i : ℚ)))).Pairwise (fun a b => leVal a b) := by
  apply List.Pairwise.map
  case H =>
    intro a b hab
    simp only [leVal, decide_eq_true_eq]
    exact le_of_lt (by exact_mod_cast hab)
  exact List.pairwise_lt_range n

theorem ranking_canon (n : ℕ) (hn : 0 < n) :
    calculate_percentile_ranking (canonInput n) =
      (List.range n).map (fun k : ℕ => (k, round2 (((k : ℚ) + 1) / (n : ℚ) * 100))) := by
  have hemp : (validEntries (canonInput n)).isEmpty = false := by
    rw [validEntries_canon]
    apply isEmpty_false_of_ne_nil
    intro h
    have h2 := congrArg List.length h
    simp at h2
    omega
  rw [ranking_eq _ hemp, validEntries_canon,
    List.mergeSort_of_sorted (canon_sorted n)]
  apply List.ext_getElem
  · simp
  · intro i h₁ h₂
    have hi : i < n := by simpa using h₂
    have hlen2 : ((List.range n).map (fun i : ℕ => (i, (i : ℚ)))).length = n := by simp
    simp only [List.getElem_map, List.getElem_enum, List.getElem_range, hlen2]

/-- Claim C1 does not hold as stated: with 20001 valid tie-free entries the
instrument of rank 1 gets percentile `round(100/20001, 2) = 0.0`, which lies
outside `(0, 100]`. -/
theorem percentile_ranking_counterexample :
    validEntries (canonInput 20001) ≠ [] ∧
    ((validEntries (canonInput 20001)).map Prod.snd).Nodup ∧
    ((0 : ℕ), (0 : ℚ)) ∈ calculate_percentile_ranking (canonInput 20001) ∧
    ¬ (0 : ℚ) < 0 := by
  refine ⟨?_, ?_, ?_, by norm_num⟩
  · rw [validEntries_canon]
    intro h
    have := congrArg List.length h
    simp at this
  · rw [validEntries_canon, List.map_map]
    have : (Prod.snd ∘ fun i : ℕ => (i, (i : ℚ))) = (fun i : ℕ => (i : ℚ)) := rfl
    rw [this]
    exact (List.nodup_range 20001).map Nat.cast_injective
  · rw [ranking_canon 20001 (by norm_num)]
    apply List.mem_map.2
    refine ⟨0, List.mem_range.2 (by norm_num), ?_⟩
    have hval : round2 ((((0 : ℕ) : ℚ) + 1) / ((20001 : ℕ) : ℚ) * 100) = 0 := by
      rw [round2, round_eq]
      have e1 : (((0 : ℕ) : ℚ) + 1) / ((20001 : ℕ) : ℚ) * 100 * 100 + 1 / 2
          = 40001 / 40002 := by
        push_cast
        norm_num
      rw [e1]
      have e2 : ⌊(40001 / 40002 : ℚ)⌋ = 0 := by
        apply Int.floor_eq_zero_iff.2
        rw [Set.mem_Ico]
        constructor <;> norm_num
      rw [e2]
      norm_num
    exact Prod.ext_iff.2 ⟨rfl, hval⟩

/-- Witness for the amended Claim C1: on the two-entry dictionary
`{0: 10, 1: 20}` the maximum-valued instrument `1` receives exactly 100. -/
theorem percentile_ranking_amended_witness :
    ((1 : ℕ), (100 : ℚ)) ∈
      calculate_percentile_ranking [((0 : ℕ), PyNum.num 10), (1, PyNum.num 20)] := by
  have hv : validEntries [((0 : ℕ), PyNum.num 10), (1, PyNum.num 20)]
      = [(0, (10 : ℚ)), (1, 20)] := by
    simp [validEntries]
  refine (percentile_ranking_amended [((0 : ℕ), PyNum.num 10), (1, PyNum.num 20)]
    ?_ ?_ ?_ ?_).2.2 1 20 ?_ ?_
  · rw [hv]
    simp
  · rw [hv]
    simp
  · rw [hv]
    simp
  · rw [hv]
    simp only [List.map_cons, List.map_nil, List.nodup_cons, List.mem_cons]
    norm_num
  · rw [hv]
    simp
  · rw [hv]
    intro q hq
    rcases List.mem_cons.1 hq with h | h
    · rw [h]
      norm_num
    · rcases List.mem_cons.1 h with h2 | h2
      · rw [h2]
      · simp at h2

/-- Claim C10: for tie-free inputs the output of `calculate_percentile_ranking`
depends only on the set of (instrument, value) pairs: permuting the insertion
order leaves the result unchanged (indeed literally equal as a list). -/
theorem percentile_ranking_order_independent {α : Type}
    (l₁ l₂ : List (α × PyNum)) (hp : l₁.Perm l₂)
    (hvals : ((validEntries l₁).map Prod.snd).Nodup) :
    calculate_percentile_ranking l₁ = calculate_percentile_ranking l₂ := by
  have hv : (validEntries l₁).Perm (validEntries l₂) := hp.filterMap _
  by_cases hemp : validEntries l₁ = []
  · have h2 : validEntries l₂ = [] := by
      rw [hemp] at hv
      exact (List.Perm.nil_eq hv).symm
    unfold calculate_percentile_ranking
    rw [hemp, h2]
  · have hemp1 : (validEntries l₁).isEmpty = false := isEmpty_false_of_ne_nil hemp
    have hemp2 : (validEntries l₂).isEmpty = false := by
      apply isEmpty_false_of_ne_nil
      intro h
      rw [h] at hv
      exact hemp (List.Perm.nil_eq hv.symm).symm
    have hsorteq : (validEntries l₁).mergeSort leVal
        = (validEntries l₂).mergeSort leVal := by
      apply sorted_perm_unique
      · exact (List.mergeSort_perm (validEntries l₁) leVal).trans
          (hv.trans (List.mergeSort_perm (validEntries l₂) leVal).symm)
      · exact List.sorted_mergeSort leVal_trans leVal_total (validEntries l₁)
      · exact List.sorted_mergeSort leVal_trans leVal_total (validEntries l₂)
      · exact (((List.mergeSort_perm (validEntries l₁) leVal).map
          Prod.snd).nodup_iff).2 hvals
    rw [ranking_eq _ hemp1, ranking_eq _ hemp2, hsorteq, hv.length_eq]

/-- Witness for Claim C10: the dictionaries `{7: 5, 9: 3}` and `{9: 3, 7: 5}`
produce the same percentile table. -/
theorem percentile_ranking_order_independent_witness :
    calculate_percentile_ranking [((7 : ℕ), PyNum.num 5), (9, PyNum.num 3)]
      = calculate_percentile_ranking [((9 : ℕ), PyNum.num 3), (7, PyNum.num 5)] := by
  apply percentile_ranking_order_independent
  · exact List.Perm.swap _ _ _
  · simp only [validEntries, List.filterMap_cons, List.filterMap_nil,
      List.map_cons, List.map_nil, List.nodup_cons, List.mem_cons]
    norm_num

/-! ### Composite Rating (`calculate_comp_rating`, `ibd_ratings_calculator.py` 754-842) -/

/-- A letter rating A-E as used for the A/D and SMR components. -/
inductive Letter where
  | A | B | C | D | E
deriving DecidableEq, Repr

/-- `ad_score_map` / `smr_score_map` from `calculate_comp_rating`. -/
def letterScore : Letter → ℚ
  | Letter.A => 100
  | Letter.B => 75
  | Letter.C => 50
  | Letter.D => 25
  | Letter.E => 0

/-- The 52-week-high-distance sub-score inside `calculate_comp_rating`
(the float literal `3.33` is the exact decimal 333/100). -/
def highScore (d : ℚ) : ℚ :=
  if -5 ≤ d then 100
  else if -15 ≤ d then 100 - ((|d| - 5) * 5)
  else max 0 (50 - ((|d| - 15) * (333 / 100)))

/-- One `if ... : score += value * weight; weight_sum += weight` block of
`calculate_comp_rating`, acting on the running `(score, weight_sum)` pair. -/
def accStep (acc : ℚ × ℚ) (x : Option ℚ × ℚ) : ℚ × ℚ :=
  match x.1 with
  | some v => (acc.1 + v * x.2, acc.2 + x.2)
  | none => acc

/-- Running the six accumulation blocks of `calculate_comp_rating` over a list
of (optional component score, weight) pairs. -/
def accumulate (xs : List (Option ℚ × ℚ)) : ℚ × ℚ := xs.foldl accStep (0, 0)

/-- The final normalisation of `calculate_comp_rating`: the code computes
`score / weight_sum * 100`, clamps into [0, 100] and rounds to 2 decimals;
with `weight_sum = 0` it returns `None`. -/
def comp_of (xs : List (Option ℚ × ℚ)) : Option ℚ :=
  let p := accumulate xs
  if 0 < p.2 then some (round2 (min 100 (max 0 (p.1 / p.2 * 100)))) else none

/-- The six components of `calculate_comp_rating` in the order the code
accumulates them, with their weights. -/
def compEntries (rs_rating eps_rating : Option ℚ) (ad_rating smr_rating : Option Letter)
    (industry_group_rs price_vs_52w_high : Option ℚ) : List (Option ℚ × ℚ) :=
  [(rs_rating, 30 / 100), (eps_rating, 30 / 100),
   (ad_rating.map letterScore, 15 / 100), (smr_rating.map letterScore, 10 / 100),
   (industry_group_rs, 10 / 100), (price_vs_52w_high.map highScore, 5 / 100)]

/-- `IBDRatingsCalculator.calculate_comp_rating`, with the source's parameter
order `(rs, eps, ad, price_vs_52w_high, smr, industry_group_rs)`. -/
def calculate_comp_rating (rs_rating eps_rating : Option ℚ) (ad_rating : Option Letter)
    (price_vs_52w_high : Option ℚ) (smr_rating : Option Letter)
    (industry_group_rs : Option ℚ) : Option ℚ :=
  comp_of (compEntries rs_rating eps_rating ad_rating smr_rating
    industry_group_rs price_vs_52w_high)

theorem accumulate_snoc (xs : List (Option ℚ × ℚ)) (x : Option ℚ × ℚ) :
    accumulate (xs ++ [x]) = accStep (accumulate xs) x := by
  simp [accumulate, List.foldl_append]

theorem accumulate_perm {xs ys : List (Option ℚ × ℚ)} (h : xs.Perm ys) :
    accumulate xs = accumulate ys := by
  unfold accumulate
  apply h.foldl_eq'
  intro x _ y _ z
  rcases x with ⟨xv, xw⟩
  rcases y with ⟨yv, yw⟩
  rcases z with ⟨za, zw⟩
  cases xv <;> cases yv <;> simp only [accStep] <;> rw [Prod.ext_iff] <;>
    constructor <;> simp <;> ring

theorem accumulate_weight_nonneg (xs : List (Option ℚ × ℚ))
    (h : ∀ x ∈ xs, 0 ≤ x.2) : 0 ≤ (accumulate xs).2 := by
  induction xs using List.reverseRecOn with
  | nil => simp [accumulate]
  | append_singleton xs x ih =>
    rw [accumulate_snoc]
    have hx : 0 ≤ x.2 := h x (by simp)
    have hxs : 0 ≤ (accumulate xs).2 := ih (fun y hy => h y (by simp [hy]))
    rcases x with ⟨xv, xw⟩
    cases xv <;> simp only [accStep] <;> simp at hx ⊢ <;> linarith

theorem accumulate_weight_pos_iff (xs : List (Option ℚ × ℚ))
    (h : ∀ x ∈ xs, 0 < x.2) :
    (0 < (accumulate xs).2 ↔ 0 < xs.countP (fun x => x.1.isSome)) := by
  induction xs using List.reverseRecOn with
  | nil => simp [accumulate]
  | append_singleton xs x ih =>
    have hx : 0 < x.2 := h x (by simp)
    have hxs : ∀ y ∈ xs, 0 < y.2 := fun y hy => h y (by simp [hy])
    have hnn : 0 ≤ (accumulate xs).2 :=
      accumulate_weight_nonneg xs (fun y hy => le_of_lt (hxs y hy))
    rw [accumulate_snoc, List.countP_append]
    rcases x with ⟨xv, xw⟩
    cases xv with
    | none => simpa [accStep] using ih hxs
    | some v =>
      simp only [accStep, List.countP_cons, List.countP_nil]
      simp only [Option.isSome_some]
      constructor
      · intro _
        simp
      · intro _
        simp only [] at hx ⊢
        nlinarith

theorem accumulate_scale (xs : List (Option ℚ × ℚ)) (c : ℚ) :
    accumulate (xs.map (fun x => (x.1, c * x.2)))
      = ((accumulate xs).1 * c, (accumulate xs).2 * c) := by
  induction xs using List.reverseRecOn with
  | nil => simp [accumulate]
  | append_singleton xs x ih =>
    rw [List.map_append, List.map_singleton, accumulate_snoc, accumulate_snoc, ih]
    rcases x with ⟨xv, xw⟩
    cases xv <;> simp only [accStep] <;> rw [Prod.ext_iff] <;> constructor <;>
      simp <;> ring

theorem round2_zero : round2 0 = 0 := by
  unfold round2
  norm_num

theorem compEntries_weights_pos (rs eps : Option ℚ) (ad smr : Option Letter)
    (igrs pvh : Option ℚ) :
    ∀ x ∈ compEntries rs eps ad smr igrs pvh, 0 < x.2 := by
  intro x hx
  simp only [compEntries, List.mem_cons, List.not_mem_nil, or_false] at hx
  rcases hx with rfl | rfl | rfl | rfl | rfl | rfl <;> norm_num

/-- Claim C2 fails on the code: `calculate_comp_rating` computes
`score / weight_sum * 100`, not `score / weight_sum`; with only an RS rating
of 50 supplied the renormalized weighted sum is 50, but the code returns
`min(100, 50 * 100) = 100`. -/
theorem comp_rating_saturates :
    calculate_comp_rating (some 50) none none none none none = some 100 ∧
      (50 : ℚ) ≠ 100 := by
  constructor
  · unfold calculate_comp_rating comp_of compEntries accumulate
    simp only [Option.map_none, List.foldl_cons, List.foldl_nil, accStep]
    norm_num
    exact round2_hundred
  · norm_num

/-- Claim C3: `calculate_comp_rating` is invariant under the supply order of
its six weighted components; with zero components present it returns `None`
and with at least one it returns a value in [0, 100]; and scaling every
weight by the same positive constant leaves the result unchanged. -/
theorem comp_rating_invariants :
    (∀ (rs eps : Option ℚ) (ad smr : Option Letter) (igrs pvh : Option ℚ)
        (xs : List (Option ℚ × ℚ)),
        xs.Perm (compEntries rs eps ad smr igrs pvh) →
        comp_of xs = calculate_comp_rating rs eps ad pvh smr igrs) ∧
    (∀ (rs eps : Option ℚ) (ad smr : Option Letter) (igrs pvh : Option ℚ),
        ((compEntries rs eps ad smr igrs pvh).countP (fun x => x.1.isSome) = 0 →
          calculate_comp_rating rs eps ad pvh smr igrs = none) ∧
        (0 < (compEntries rs eps ad smr igrs pvh).countP (fun x => x.1.isSome) →
          ∃ q, calculate_comp_rating rs eps ad pvh smr igrs = some q ∧
            0 ≤ q ∧ q ≤ 100)) ∧
    (∀ (rs eps : Option ℚ) (ad smr : Option Letter) (igrs pvh : Option ℚ) (c : ℚ),
        0 < c →
        comp_of ((compEntries rs eps ad smr igrs pvh).map (fun x => (x.1, c * x.2)))
          = calculate_comp_rating rs eps ad pvh smr igrs) := by
  refine ⟨?_, ?_, ?_⟩
  · intro rs eps ad smr igrs pvh xs hperm
    unfold calculate_comp_rating comp_of
    rw [accumulate_perm hperm]
  · intro rs eps ad smr igrs pvh
    have hw := compEntries_weights_pos rs eps ad smr igrs pvh
    have hiff := accumulate_weight_pos_iff _ hw
    constructor
    · intro hzero
      unfold calculate_comp_rating comp_of
      rw [if_neg]
      intro hpos
      rw [hiff, hzero] at hpos
      exact absurd hpos (by norm_num)
    · intro hpos
      have hwpos := hiff.2 hpos
      unfold calculate_comp_rating comp_of
      rw [if_pos hwpos]
      refine ⟨_, rfl, ?_, ?_⟩
      · have h0 : (0 : ℚ) ≤ min 100 (max 0
            ((accumulate (compEntries rs eps ad smr igrs pvh)).1 /
              (accumulate (compEntries rs eps ad smr igrs pvh)).2 * 100)) :=
          le_min (by norm_num) (le_max_left _ _)
        have := round2_le_round2 h0
        rw [round2_zero] at this
        exact this
      · exact round2_le_hundred (min_le_left _ _)
  · intro rs eps ad smr igrs pvh c hc
    unfold calculate_comp_rating comp_of
    rw [accumulate_scale]
    have hiff2 : 0 < (accumulate (compEntries rs eps ad smr igrs pvh)).2 * c ↔
        0 < (accumulate (compEntries rs eps ad smr igrs pvh)).2 := by
      constructor
      · intro h
        nlinarith
      · intro h
        positivity
    by_cases hpos : 0 < (accumulate (compEntries rs eps ad smr igrs pvh)).2
    · rw [if_pos (hiff2.2 hpos), if_pos hpos,
        mul_div_mul_right _ _ (ne_of_gt hc)]
    · rw [if_neg (fun h => hpos (hiff2.1 h)), if_neg hpos]

/-- Witness for Claim C3 at `rs = 40, eps = 80`, all other components absent:
the swapped supply order gives the same result, the result is in [0, 100],
and doubling every weight changes nothing. -/
theorem comp_rating_invariants_witness :
    comp_of [((some 80 : Option ℚ), 30 / 100), (some 40, 30 / 100),
        (none, 15 / 100), (none, 10 / 100), (none, 10 / 100), (none, 5 / 100)]
      = calculate_comp_rating (some 40) (some 80) none none none none ∧
    (∃ q, calculate_comp_rating (some 40) (some 80) none none none none
      = some q ∧ 0 ≤ q ∧ q ≤ 100) ∧
    comp_of ((compEntries (some 40) (some 80) none none none none).map
        (fun x => (x.1, 2 * x.2)))
      = calculate_comp_rating (some 40) (some 80) none none none none := by
  refine ⟨?_, ?_, ?_⟩
  · exact comp_rating_invariants.1 (some 40) (some 80) none none none none _
      (List.Perm.swap _ _ _)
  · exact (comp_rating_invariants.2.1 (some 40) (some 80) none none none none).2
      (by simp [compEntries])
  · exact comp_rating_invariants.2.2 (some 40) (some 80) none none none none 2
      (by norm_num)

/-! ### Rate limiter (`RateLimiter.wait_if_needed`, `fmp_data_api/data_fetcher.py` 15-35)

Timestamps are rationals (seconds since epoch).  `wait_if_needed` returns the
time at which the guarded call actually begins (after any `time.sleep`) and
the updated `self.calls` list.  Inside the sleep branch the code sets
`self.calls = []`, and the trailing `self.calls.append(now)` appends the
pre-sleep `now`. -/

def wait_if_needed (max_calls_per_minute : ℕ) (now : ℚ) (calls0 : List ℚ) :
    ℚ × List ℚ :=
  let calls := calls0.filter (fun t => decide (now - t < 60))
  if max_calls_per_minute ≤ calls.length then
    match calls.head? with
    | some c0 =>
      let sleep_time := 60 - (now - c0)
      if 0 < sleep_time then (now + sleep_time, [now])
      else (now, calls ++ [now])
    | none => (now, calls ++ [now])
  else (now, calls ++ [now])

/-- Sequential (single-threaded) use of the rate limiter: run the calls at the
given invocation times, returning the list of times at which each call begins. -/
def runRL (maxc : ℕ) : List ℚ → List ℚ → List ℚ
  | [], _ => []
  | t :: ts, s =>
    let r := wait_if_needed maxc t s
    r.1 :: runRL maxc ts r.2

/-- A schedule is sequential if every invocation happens no earlier than the
time at which the previous call began. -/
def seqValid (maxc : ℕ) : ℚ → List ℚ → List ℚ → Bool
  | _, [], _ => true
  | prevBegin, t :: ts, s =>
    decide (prevBegin ≤ t) &&
      (let r := wait_if_needed maxc t s
       seqValid maxc r.1 ts r.2)

theorem wiN_step1 : wait_if_needed 2 0 [] = (0, [0]) := by
  norm_num [wait_if_needed]

theorem wiN_step2 : wait_if_needed 2 0 [0] = (0, [0, 0]) := by
  norm_num [wait_if_needed, List.filter]

theorem wiN_step3 : wait_if_needed 2 0 [0, 0] = (60, [0]) := by
  norm_num [wait_if_needed, List.filter]

theorem wiN_step4 : wait_if_needed 2 60 [0] = (60, [60]) := by
  norm_num [wait_if_needed, List.filter]

theorem wiN_step5 : wait_if_needed 2 60 [60] = (60, [60, 60]) := by
  norm_num [wait_if_needed, List.filter]

/-- Claim C4 fails on the code: with a budget of 2 calls per minute and the
sequential invocation times [0, 0, 0, 60, 60], the five calls begin at
[0, 0, 60, 60, 60] — the 3rd call sleeps until t = 60, but the limiter then
wipes its history and records the stale pre-sleep timestamp 0, so three calls
begin inside the single sliding window [60, 120). -/
theorem rate_limiter_window_violation :
    runRL 2 [0, 0, 0, 60, 60] [] = [0, 0, 60, 60, 60] ∧
    seqValid 2 0 [0, 0, 0, 60, 60] [] = true ∧
    (runRL 2 [0, 0, 0, 60, 60] []).countP
      (fun b => decide (60 ≤ b) && decide (b < 120)) = 3 ∧
    3 > 2 := by
  have hrun : runRL 2 [0, 0, 0, 60, 60] [] = [0, 0, 60, 60, 60] := by
    simp only [runRL, wiN_step1, wiN_step2, wiN_step3, wiN_step4, wiN_step5]
  refine ⟨hrun, ?_, ?_, by norm_num⟩
  · simp only [seqValid, wiN_step1, wiN_step2, wiN_step3, wiN_step4, wiN_step5]
    norm_num
  · rw [hrun]
    norm_num [List.countP_cons]

/-! ### Rate limiter under concurrency (Claim C5)

`FMPDataFetcher` runs `_fetch_with_rate_limit` from a `ThreadPoolExecutor`
with up to 10 workers, all sharing one `RateLimiter` with no lock.  Under the
CPython GIL each bytecode is atomic, but the statement
`self.calls = [t for t in self.calls if now - t < 60]` first evaluates the
comprehension (reading `self.calls`) and then performs a separate store;
an `append` by another thread between those two steps is overwritten.  We
model a two-thread interleaving at that granularity, on the non-blocking path
(fewer recorded calls than the budget, so no sleep occurs). -/

inductive ThreadAct where
  | snapFilter   -- evaluate the list comprehension into a thread-local temp
  | storeCalls   -- store the temp back into the shared `self.calls`
  | appendCall   -- `self.calls.append(now)` (atomic under the GIL)
deriving DecidableEq, Repr

structure RaceState where
  calls : List ℚ
  tmpA : Option (List ℚ)
  tmpB : Option (List ℚ)
deriving DecidableEq, Repr

/-- One atomic step by thread A (`false`, local time `nowA`) or thread B
(`true`, local time `nowB`). -/
def raceStep (nowA nowB : ℚ) (s : RaceState) (step : Bool × ThreadAct) :
    RaceState :=
  let now := if step.1 then nowB else nowA
  match step.2 with
  | ThreadAct.snapFilter =>
    let snap := s.calls.filter (fun t => decide (now - t < 60))
    if step.1 then { s with tmpB := some snap } else { s with tmpA := some snap }
  | ThreadAct.storeCalls =>
    let tmp := if step.1 then s.tmpB else s.tmpA
    { s with calls := tmp.getD s.calls }
  | ThreadAct.appendCall => { s with calls := s.calls ++ [now] }

def runRace (nowA nowB : ℚ) (steps : List (Bool × ThreadAct)) (s : RaceState) :
    RaceState :=
  steps.foldl (raceStep nowA nowB) s

/-- The interleaving exhibiting the lost update. -/
def raceSchedule : List (Bool × ThreadAct) :=
  [(false, ThreadAct.snapFilter), (true, ThreadAct.snapFilter),
   (true, ThreadAct.storeCalls), (true, ThreadAct.appendCall),
   (false, ThreadAct.storeCalls), (false, ThreadAct.appendCall)]

/-- Claim C5 fails on the code: both threads execute the full
snapshot-store-append sequence of `wait_if_needed` in program order, yet
thread B's recorded timestamp 1 is lost — thread A's store overwrites it
with A's stale filtered snapshot. -/
theorem rate_limiter_race_lost_update :
    (runRace 0 1 raceSchedule ⟨[], none, none⟩).calls = [0] ∧
    (raceSchedule.filter (fun p => p.1 = false)).map Prod.snd
      = [ThreadAct.snapFilter, ThreadAct.storeCalls, ThreadAct.appendCall] ∧
    (raceSchedule.filter (fun p => p.1 = true)).map Prod.snd
      = [ThreadAct.snapFilter, ThreadAct.storeCalls, ThreadAct.appendCall] ∧
    (1 : ℚ) ∉ (runRace 0 1 raceSchedule ⟨[], none, none⟩).calls := by
  have hrun : (runRace 0 1 raceSchedule ⟨[], none, none⟩).calls = [0] := by
    simp [runRace, raceSchedule, raceStep]
  refine ⟨hrun, by simp [raceSchedule], by simp [raceSchedule], ?_⟩
  rw [hrun]
  intro h
  rcases List.mem_cons.1 h with h1 | h1
  · exact absurd h1 (by norm_num)
  · simp at h1

/-! ### Data collector (`IBDDataCollector.collect_ticker_data` / `collect_batch`,
`ibd_data_collector.py` 109-176)

The network and database are abstracted into a per-ticker environment: what
each fetch would return.  `get_historical_prices` returns `none` or a frame
with `n` daily bars; `get_income_statement` returns `none` for empty/missing
data, otherwise `m ≥ 1` statements; annual statements, balance sheet and
profile only matter through their truthiness. -/

structure TickerEnv where
  prices : Option ℕ      -- number of daily bars, `none` = fetch failed
  quarterly : Option ℕ   -- number of quarterly income statements
  annual : Bool          -- annual income statements present
  balance : Bool         -- annual balance sheet present
  profile : Bool         -- company profile present
deriving DecidableEq, Repr

/-- The externally visible actions of `collect_ticker_data`, in order. -/
inductive CollectStep where
  | fetchPrices | insertPrices
  | fetchQuarterly | insertQuarterly
  | fetchAnnual | insertAnnual
  | fetchBalance | insertBalance
  | fetchProfile | insertProfile
deriving DecidableEq, Repr

/-- `collect_ticker_data`: returns the success flag together with the fetch
and insert steps performed, in order. -/
def collect_ticker_data (env : TickerEnv) : Bool × List CollectStep :=
  match env.prices with
  | none => (false, [CollectStep.fetchPrices])
  | some n =>
    if 252 ≤ n then
      match env.quarterly with
      | none => (false, [CollectStep.fetchPrices, CollectStep.insertPrices,
          CollectStep.fetchQuarterly])
      | some m =>
        if 5 ≤ m then
          (true,
            [CollectStep.fetchPrices, CollectStep.insertPrices,
             CollectStep.fetchQuarterly, CollectStep.insertQuarterly,
             CollectStep.fetchAnnual]
            ++ (if env.annual then [CollectStep.insertAnnual] else [])
            ++ [CollectStep.fetchBalance]
            ++ (if env.balance then [CollectStep.insertBalance] else [])
            ++ [CollectStep.fetchProfile]
            ++ (if env.profile then [CollectStep.insertProfile] else []))
        else (false, [CollectStep.fetchPrices, CollectStep.insertPrices,
          CollectStep.fetchQuarterly])
    else (false, [CollectStep.fetchPrices])

/-- The per-batch result record of `collect_batch`. -/
structure BatchResults (α : Type) where
  success : ℕ
  failed : ℕ
  tickers_collected : List α
deriving DecidableEq, Repr

/-- The loop body of `collect_batch`. -/
def batchStep {α : Type} (acc : BatchResults α) (p : α × TickerEnv) :
    BatchResults α :=
  if (collect_ticker_data p.2).1 then
    { acc with success := acc.success + 1,
               tickers_collected := acc.tickers_collected ++ [p.1] }
  else { acc with failed := acc.failed + 1 }

/-- `collect_batch`: process every ticker of the batch in order, tallying
successes and failures. -/
def collect_batch {α : Type} (batch : List (α × TickerEnv)) : BatchResults α :=
  batch.foldl batchStep ⟨0, 0, []⟩

/-- The run-level aggregation of `collect_all_data`: sum the batch tallies. -/
def collect_all_tallies {α : Type} (batches : List (List (α × TickerEnv))) : ℕ × ℕ :=
  batches.foldl
    (fun acc b => (acc.1 + (collect_batch b).success, acc.2 + (collect_batch b).failed))
    (0, 0)

theorem collect_batch_foldl {α : Type} :
    ∀ (batch : List (α × TickerEnv)) (acc : BatchResults α),
      batch.foldl batchStep acc =
        ⟨acc.success + batch.countP (fun p => (collect_ticker_data p.2).1),
         acc.failed + batch.countP (fun p => ¬(collect_ticker_data p.2).1),
         acc.tickers_collected ++
           (batch.filter (fun p => (collect_ticker_data p.2).1)).map Prod.fst⟩
  | [], acc => by simp
  | p :: batch, acc => by
    rw [List.foldl_cons, collect_batch_foldl batch (batchStep acc p)]
    by_cases h : (collect_ticker_data p.2).1
    · simp [batchStep, h, List.countP_cons, Nat.add_assoc, Nat.add_comm,
        Nat.add_left_comm]
    · simp [batchStep, h, List.countP_cons, Nat.add_assoc, Nat.add_comm,
        Nat.add_left_comm]

/-- Claim C6: a ticker is accepted iff it has at least 252 daily bars and at
least 5 quarterly statements; failing either threshold stops all remaining
fetch steps for it; annual statements, balance sheet and profile never affect
acceptance; and one ticker's failure never aborts its batch or the run — the
batch processes every ticker, its tallies are exactly the per-ticker
success/failure counts, and the run-level signal is the sum of the tallies. -/
theorem collector_thresholds_and_isolation {α : Type} :
    (∀ env : TickerEnv, (collect_ticker_data env).1 = true ↔
      ((∃ n, env.prices = some n ∧ 252 ≤ n) ∧
       (∃ m, env.quarterly = some m ∧ 5 ≤ m))) ∧
    (∀ env : TickerEnv, (env.prices = none ∨ ∃ n, env.prices = some n ∧ n < 252) →
      (collect_ticker_data env).2 = [CollectStep.fetchPrices]) ∧
    (∀ (env : TickerEnv) (n : ℕ), env.prices = some n → 252 ≤ n →
      (env.quarterly = none ∨ ∃ m, env.quarterly = some m ∧ m < 5) →
      (collect_ticker_data env).2 =
        [CollectStep.fetchPrices, CollectStep.insertPrices,
         CollectStep.fetchQuarterly]) ∧
    (∀ env₁ env₂ : TickerEnv, env₁.prices = env₂.prices →
      env₁.quarterly = env₂.quarterly →
      (collect_ticker_data env₁).1 = (collect_ticker_data env₂).1) ∧
    (∀ (batch : List (α × TickerEnv)),
      (collect_batch batch).success =
        batch.countP (fun p => (collect_ticker_data p.2).1) ∧
      (collect_batch batch).failed =
        batch.countP (fun p => ¬(collect_ticker_data p.2).1) ∧
      (collect_batch batch).tickers_collected =
        (batch.filter (fun p => (collect_ticker_data p.2).1)).map Prod.fst ∧
      (collect_batch batch).success + (collect_batch batch).failed =
        batch.length) ∧
    (∀ (batches : List (List (α × TickerEnv))),
      (collect_all_tallies batches).1 + (collect_all_tallies batches).2 =
        (batches.map List.length).sum) := by
  have hbatch : ∀ (batch : List (α × TickerEnv)),
      collect_batch batch =
        ⟨batch.countP (fun p => (collect_ticker_data p.2).1),
         batch.countP (fun p => ¬(collect_ticker_data p.2).1),
         (batch.filter (fun p => (collect_ticker_data p.2).1)).map Prod.fst⟩ := by
    intro batch
    unfold collect_batch
    rw [collect_batch_foldl]
    simp
  refine ⟨?_, ?_, ?_, ?_, ?_, ?_⟩
  · intro env
    rcases env with ⟨prices, quarterly, annual, balance, profile⟩
    cases prices with
    | none => simp [collect_ticker_data]
    | some n =>
      by_cases hn : 252 ≤ n
      · cases quarterly with
        | none => simp [collect_ticker_data, hn]
        | some m =>
          by_cases hm : 5 ≤ m
          · simp [collect_ticker_data, hn, hm]
          · simp [collect_ticker_data, hn, hm]
      · simp [collect_ticker_data, hn]
  · intro env h
    rcases env with ⟨prices, quarterly, annual, balance, profile⟩
    rcases h with h | ⟨n, hn, hlt⟩
    · simp only at h
      subst h
      simp [collect_ticker_data]
    · simp only at hn
      subst hn
      simp [collect_ticker_data, Nat.not_le.2 hlt]
  · intro env n hp hn h
    rcases env with ⟨prices, quarterly, annual, balance, profile⟩
    simp only at hp
    subst hp
    rcases h with h | ⟨m, hm, hlt⟩
    · simp only at h
      subst h
      simp [collect_ticker_data, hn]
    · simp only at hm
      subst hm
      simp [collect_ticker_data, hn, Nat.not_le.2 hlt]
  · intro env₁ env₂ hp hq
    rcases env₁ with ⟨p₁, q₁, a₁, b₁, c₁⟩
    rcases env₂ with ⟨p₂, q₂, a₂, b₂, c₂⟩
    simp only at hp hq
    subst hp
    subst hq
    cases p₁ with
    | none => simp [collect_ticker_data]
    | some n =>
      by_cases hn : 252 ≤ n
      · cases q₁ with
        | none => simp [collect_ticker_data, hn]
        | some m => by_cases hm : 5 ≤ m <;> simp [collect_ticker_data, hn, hm]
      · simp [collect_ticker_data, hn]
  · intro batch
    rw [hbatch]
    refine ⟨rfl, rfl, rfl, ?_⟩
    exact (List.length_eq_countP_add_countP _ batch).symm
  · intro batches
    suffices h : ∀ (a : ℕ × ℕ),
        (batches.foldl (fun acc b => (acc.1 + (collect_batch b).success,
          acc.2 + (collect_batch b).failed)) a).1 +
        (batches.foldl (fun acc b => (acc.1 + (collect_batch b).success,
          acc.2 + (collect_batch b).failed)) a).2 =
        a.1 + a.2 + (batches.map List.length).sum by
      have h2 := h (0, 0)
      simpa [collect_all_tallies] using h2
    induction batches with
    | nil => intro a; simp
    | cons b bs ih =>
      intro a
      rw [List.foldl_cons, ih]
      simp only [List.map_cons, List.sum_cons]
      have hb : (collect_batch b).success + (collect_batch b).failed = b.length := by
        rw [hbatch b]
        exact (List.length_eq_countP_add_countP _ b).symm
      omega

/-- Witness for Claim C6: a ticker with 300 bars and 8 quarterly statements
but no annual data and no profile is accepted; one with only 10 bars fails
with no further fetches; and a batch holding both still processes both,
tallying one success and one failure. -/
theorem collector_thresholds_and_isolation_witness :
    (collect_ticker_data ⟨some 300, some 8, false, false, false⟩).1 = true ∧
    (collect_ticker_data ⟨some 10, some 8, true, true, true⟩).2
      = [CollectStep.fetchPrices] ∧
    (collect_batch [((0 : ℕ), ⟨some 10, some 8, true, true, true⟩),
        (1, ⟨some 300, some 8, false, false, false⟩)]).success = 1 ∧
    (collect_batch [((0 : ℕ), ⟨some 10, some 8, true, true, true⟩),
        (1, ⟨some 300, some 8, false, false, false⟩)]).failed = 1 := by
  refine ⟨?_, ?_, ?_, ?_⟩
  · exact (@collector_thresholds_and_isolation ℕ).1 _ |>.2
      ⟨⟨300, rfl, by norm_num⟩, ⟨8, rfl, by norm_num⟩⟩
  · exact (@collector_thresholds_and_isolation ℕ).2.1 _
      (Or.inr ⟨10, rfl, by norm_num⟩)
  · rw [((@collector_thresholds_and_isolation ℕ).2.2.2.2.1 _).1]
    decide
  · rw [((@collector_thresholds_and_isolation ℕ).2.2.2.2.1 _).2.1]
    decide

/-! ### Relative-strength value (`calculate_rs_value`, `ibd_data_collector.py` 264-289) -/

/-- Python negative indexing `close[-k]` into the close series (only used with
`1 ≤ k ≤ length`). -/
def pyIdx (close : List ℚ) (k : ℕ) : ℚ := close.getD (close.length - k) 0

/-- One `roc_Xd` line of `calculate_rs_value`: percent rate of change over the
last `k` trading days, defined as 0 when the historical close is 0. -/
def roc (close : List ℚ) (k : ℕ) : ℚ :=
  if pyIdx close k ≠ 0 then (pyIdx close 1 / pyIdx close k - 1) * 100 else 0

/-- `IBDDataCollector.calculate_rs_value`: `None` components under 252 bars,
otherwise the 0.4/0.2/0.2/0.2-weighted blend of the 63/126/189/252-day rates
of change (the float literals are the exact decimals 4/10 and 2/10). -/
def calculate_rs_value (close : List ℚ) : Option (ℚ × ℚ × ℚ × ℚ × ℚ) :=
  if close.length < 252 then none
  else
    let roc_63d := roc close 63
    let roc_126d := roc close 126
    let roc_189d := roc close 189
    let roc_252d := roc close 252
    some ((4 / 10) * roc_63d + (2 / 10) * roc_126d + (2 / 10) * roc_189d
        + (2 / 10) * roc_252d,
      roc_63d, roc_126d, roc_189d, roc_252d)

theorem pyIdx_replicate (c : ℚ) (k : ℕ) (hk : 1 ≤ k) (hk2 : k ≤ 252) :
    pyIdx (List.replicate 252 c) k = c := by
  unfold pyIdx
  rw [List.length_replicate]
  rw [List.getD_eq_getElem _ _ (by rw [List.length_replicate]; omega)]
  exact List.getElem_replicate _ _

theorem roc_replicate (c : ℚ) (k : ℕ) (hk : 1 ≤ k) (hk2 : k ≤ 252) :
    roc (List.replicate 252 c) k = 0 := by
  unfold roc
  rw [pyIdx_replicate c k hk hk2, pyIdx_replicate c 1 (by norm_num) (by norm_num)]
  by_cases hc : c = 0
  · rw [if_neg]
    simp [hc]
  · rw [if_pos hc, div_self hc]
    ring

/-- Claim C7: `calculate_rs_value` is `None` under 252 bars; with at least 252
bars it returns `0.4*ROC63 + 0.2*ROC126 + 0.2*ROC189 + 0.2*ROC252` where each
`ROC k` is the percent rate of change `(close[-1]/close[-k] - 1) * 100`
whenever `close[-k]` is nonzero; and a flat series of 252 identical bars gives
a relative-strength value and rates of change of exactly 0. -/
theorem rs_value_spec :
    (∀ close : List ℚ, close.length < 252 → calculate_rs_value close = none) ∧
    (∀ close : List ℚ, 252 ≤ close.length →
      calculate_rs_value close = some
        ((4 / 10) * roc close 63 + (2 / 10) * roc close 126
          + (2 / 10) * roc close 189 + (2 / 10) * roc close 252,
         roc close 63, roc close 126, roc close 189, roc close 252) ∧
      (∀ k : ℕ, pyIdx close k ≠ 0 →
        roc close k = (pyIdx close 1 / pyIdx close k - 1) * 100)) ∧
    (∀ c : ℚ, calculate_rs_value (List.replicate 252 c) = some (0, 0, 0, 0, 0)) := by
  refine ⟨?_, ?_, ?_⟩
  · intro close h
    unfold calculate_rs_value
    rw [if_pos h]
  · intro close h
    constructor
    · unfold calculate_rs_value
      rw [if_neg (by omega)]
    · intro k hk
      unfold roc
      rw [if_pos hk]
  · intro c
    unfold calculate_rs_value
    rw [if_neg (by rw [List.length_replicate]; omega)]
    rw [roc_replicate c 63 (by norm_num) (by norm_num),
      roc_replicate c 126 (by norm_num) (by norm_num),
      roc_replicate c 189 (by norm_num) (by norm_num),
      roc_replicate c 252 (by norm_num) (by norm_num)]
    norm_num

/-- Witness for Claim C7: the empty series yields `None`, and 252 flat bars at
price 7 yield exactly zero for the RS value and every ROC term. -/
theorem rs_value_spec_witness :
    calculate_rs_value [] = none ∧
    calculate_rs_value (List.replicate 252 7) = some (0, 0, 0, 0, 0) := by
  exact ⟨rs_value_spec.1 [] (by simp), rs_value_spec.2.2 7⟩

/-! ### A/D rating (`calculate_ad_rating`, `ibd_ratings_calculator.py` 431-516)

One OHLCV bar of the price history.  The float literals of the source are the
exact decimals: `0.0001 = 1/10000`, `0.6 = 6/10`, `0.4 = 4/10 = 2/5`,
`0.15 = 3/20`, `0.5 = 1/2`, `1.5 = 3/2`. -/

structure Bar where
  close : ℚ
  high : ℚ
  low : ℚ
  volume : ℚ
deriving DecidableEq, Repr

/-- `df.tail(n)`: the last `n` rows. -/
def tailN {α : Type} (n : ℕ) (l : List α) : List α := l.drop (l.length - n)

/-- Money Flow Volume of one bar: the Money Flow Multiplier times volume, with
`np.where(high_low_diff == 0, 0.0001, high_low_diff)` substituting the epsilon
for a zero high-low range. -/
def barMFV (b : Bar) : ℚ :=
  ((b.close - b.low) - (b.high - b.close)) /
    (if b.high - b.low = 0 then 1 / 10000 else b.high - b.low) * b.volume

/-- `np.diff(close) / close[:-1]` over the window. -/
def priceChanges (bars : List Bar) : List ℚ :=
  (bars.zip bars.tail).map (fun p => (p.2.close - p.1.close) / p.1.close)

/-- `np.linspace(0.5, 1.5, n)`. -/
def linWeights (n : ℕ) : List ℚ :=
  (List.range n).map (fun i => 1 / 2 + (i : ℚ) * (1 / ((n : ℚ) - 1)))

/-- The `combined_score` computed by `calculate_ad_rating` on the non-degenerate
path: `normalized_score * 0.6 + (vol_ratio - 1) * 0.4`. -/
def combinedScore (recent : List Bar) : ℚ :=
  let mfv := recent.map barMFV
  let pcs := priceChanges recent
  let weights := linWeights (mfv.length - 1)
  let tri := pcs.zip (mfv.tail.zip weights)
  let up := tri.filter (fun t => decide (0 < t.1))
  let down := tri.filter (fun t => decide (t.1 < 0))
  let weighted_mfv_up :=
    (up.map (fun t => t.2.1 * t.2.2)).sum / (up.map (fun t => t.2.2)).sum
  let weighted_mfv_down :=
    (down.map (fun t => t.2.1 * t.2.2)).sum / (down.map (fun t => t.2.2)).sum
  let total_mfv := mfv.sum
  let avg_mfv := total_mfv / (mfv.length : ℚ)
  let normalized_score :=
    if avg_mfv ≠ 0 then total_mfv / (|avg_mfv| * (mfv.length : ℚ)) else 0
  let volQuot :=
    if weighted_mfv_down ≠ 0 then weighted_mfv_up / |weighted_mfv_down| else 1
  normalized_score * (6 / 10) + (volQuot - 1) * (4 / 10)

/-- The threshold chain at the end of `calculate_ad_rating`. -/
def adLetter (s : ℚ) : Letter :=
  if 2 / 5 ≤ s then Letter.A
  else if 3 / 20 ≤ s then Letter.B
  else if -(3 / 20) ≤ s then Letter.C
  else if -(2 / 5) ≤ s then Letter.D
  else Letter.E

/-- `IBDRatingsCalculator.calculate_ad_rating`, over the price history the
database would return (`none` = no data). -/
def calculate_ad_rating : Option (List Bar) → Option Letter
  | none => none
  | some df =>
    if df.length < 65 then none
    else
      let recent := tailN 65 df
      let pcs := priceChanges recent
      if 0 < pcs.countP (fun x => decide (0 < x)) ∧
          0 < pcs.countP (fun x => decide (x < 0)) then
        some (adLetter (combinedScore recent))
      else some Letter.C

/-- Claim C8: `None` under 65 bars; epsilon substitution for a zero high-low
range; `C` on a degenerate up/down split; otherwise the fixed thresholds map
the combined score deterministically on both sides of every boundary. -/
theorem ad_rating_spec :
    (∀ prices : Option (List Bar),
      (prices = none ∨ ∃ df, prices = some df ∧ df.length < 65) →
      calculate_ad_rating prices = none) ∧
    (∀ df : List Bar, 65 ≤ df.length →
      ((priceChanges (tailN 65 df)).countP (fun x => decide (0 < x)) = 0 ∨
       (priceChanges (tailN 65 df)).countP (fun x => decide (x < 0)) = 0) →
      calculate_ad_rating (some df) = some Letter.C) ∧
    (∀ df : List Bar, 65 ≤ df.length →
      0 < (priceChanges (tailN 65 df)).countP (fun x => decide (0 < x)) →
      0 < (priceChanges (tailN 65 df)).countP (fun x => decide (x < 0)) →
      calculate_ad_rating (some df) = some (adLetter (combinedScore (tailN 65 df)))) ∧
    (∀ b : Bar, b.high = b.low →
      barMFV b = ((b.close - b.low) - (b.high - b.close)) * 10000 * b.volume) ∧
    (adLetter (2 / 5) = Letter.A ∧ adLetter (2 / 5 - 1 / 100) = Letter.B ∧
     adLetter (3 / 20) = Letter.B ∧ adLetter (3 / 20 - 1 / 100) = Letter.C ∧
     adLetter (-(3 / 20)) = Letter.C ∧ adLetter (-(3 / 20) - 1 / 100) = Letter.D ∧
     adLetter (-(2 / 5)) = Letter.D ∧ adLetter (-(2 / 5) - 1 / 100) = Letter.E) := by
  refine ⟨?_, ?_, ?_, ?_, ?_⟩
  · intro prices h
    rcases h with rfl | ⟨df, rfl, hlen⟩
    · rfl
    · dsimp only [calculate_ad_rating]
      rw [if_pos hlen]
  · intro df hlen hdeg
    dsimp only [calculate_ad_rating]
    rw [if_neg (by omega), if_neg]
    intro ⟨h1, h2⟩
    rcases hdeg with h | h <;> omega
  · intro df hlen h1 h2
    dsimp only [calculate_ad_rating]
    rw [if_neg (by omega), if_pos ⟨h1, h2⟩]
  · intro b hb
    unfold barMFV
    rw [if_pos (by rw [hb]; ring)]
    rw [div_eq_mul_inv]
    norm_num
  · refine ⟨?_, ?_, ?_, ?_, ?_, ?_, ?_, ?_⟩ <;> norm_num [adLetter]

/-- A flat bar: every price 1, volume 1. -/
def flatBar : Bar := ⟨1, 1, 1, 1⟩

theorem zip_replicate_succ {α : Type} (a : α) :
    ∀ n : ℕ, (List.replicate (n + 1) a).zip (List.replicate n a)
      = List.replicate n (a, a)
  | 0 => rfl
  | n + 1 => by
    show (a :: List.replicate (n + 1) a).zip (a :: List.replicate n a)
      = (a, a) :: List.replicate n (a, a)
    rw [List.zip_cons_cons, zip_replicate_succ a n]

theorem priceChanges_flat :
    priceChanges (List.replicate 65 flatBar) = List.replicate 64 0 := by
  unfold priceChanges
  rw [List.tail_replicate]
  rw [show (65 : ℕ) - 1 = 64 by norm_num, show (65 : ℕ) = 64 + 1 by norm_num,
    zip_replicate_succ, List.map_replicate]
  norm_num [flatBar]

/-- Witness for Claim C8: no data gives `None`; 65 flat bars have a degenerate
split and rate `C`; and the A-boundary maps to `A`. -/
theorem ad_rating_spec_witness :
    calculate_ad_rating none = none ∧
    calculate_ad_rating (some (List.replicate 65 flatBar)) = some Letter.C ∧
    adLetter (2 / 5) = Letter.A := by
  refine ⟨ad_rating_spec.1 none (Or.inl rfl), ?_, ad_rating_spec.2.2.2.2.1⟩
  apply ad_rating_spec.2.1
  · simp
  · left
    have htail : tailN 65 (List.replicate 65 flatBar) = List.replicate 65 flatBar := by
      unfold tailN
      simp
    rw [htail, priceChanges_flat, List.countP_replicate]
    norm_num

/-! ### RS-STS (`ibd_screeners.py` 127-230, 356-440)

Price history rows are (trading date, close) pairs with dates as naturals;
`pd.merge(..., how='inner', on='date')` preserves the left (benchmark) key
order, assuming unique dates per frame. -/

/-- `IBDScreeners.calculate_rs_sts_percentile`: the percentile of the latest
RS ratio inside its own series, `round((sum(rs <= latest) / len) * 100, 2)`;
0 for missing/empty input. -/
def calculate_rs_sts_percentile (rs_values : List ℚ) : ℚ :=
  if rs_values.isEmpty then 0
  else
    round2 (((rs_values.countP
        (fun v => decide (v ≤ rs_values.getLastD 0)) : ℕ) : ℚ)
      / (rs_values.length : ℚ) * 100)

/-- The date-indexed inner merge of `calculate_relative_strength`: rows
`(benchmark_close, target_close)` for each matching date, in left order. -/
def innerMerge (bench target : List (ℕ × ℚ)) : List (ℚ × ℚ) :=
  bench.filterMap (fun p => (target.lookup p.1).map (fun tc => (p.2, tc)))

/-- `IBDScreeners.calculate_relative_strength`: merge on date, keep the last
`days` rows, require exactly `days` of them and a nonzero benchmark close,
and return the ratio series target/benchmark. -/
def calculate_relative_strength :
    Option (List (ℕ × ℚ)) → Option (List (ℕ × ℚ)) → ℕ → Option (List ℚ)
  | some bench, some target, days =>
    let merged := innerMerge bench target
    if merged.isEmpty then none
    else
      let merged2 := if days < merged.length then tailN days merged else merged
      if merged2.length < days then none
      else if merged2.any (fun p => decide (p.1 = 0)) then none
      else some (merged2.map (fun p => p.2 / p.1))
  | none, _, _ => none
  | some _, none, _ => none

/-- `IBDScreeners.get_rs_sts_percentile`, over the two price histories the
database would return. -/
def get_rs_sts_percentile :
    Option (List (ℕ × ℚ)) → Option (List (ℕ × ℚ)) → Option ℚ
  | none, _ => none
  | some _, none => none
  | some bench, some tick =>
    if bench.length < 25 ∨ tick.length < 25 then none
    else
      match calculate_relative_strength (some bench) (some tick) 25 with
      | none => none
      | some rs => some (calculate_rs_sts_percentile rs)

/-- The RS-STS gate that every screener with an `RS STS% ≥ 80` condition uses
(`screener_up_on_volume` and friends): `continue` when the value is `None` or
below 80. -/
def rsStsGate (rs_sts : Option ℚ) : Bool :=
  match rs_sts with
  | none => false
  | some v => decide (¬ v < 80)

theorem validEntries_enum (rs : List ℚ) :
    validEntries (rs.enum.map (fun p => (p.1, PyNum.num p.2))) = rs.enum := by
  unfold validEntries
  rw [List.filterMap_map]
  have h : ((fun p : ℕ × PyNum =>
      match p.2 with
      | PyNum.num q => some (p.1, q)
      | _ => none) ∘ (fun p : ℕ × ℚ => (p.1, PyNum.num p.2)))
      = some := by
    funext p
    rcases p with ⟨a, b⟩
    rfl
  rw [h, List.filterMap_some]

/-- The RS-STS percentile of a nonempty series is exactly the §4.3
percentile-ranking entry of the most recent element: `count(v ≤ latest)` is
the 1-based position of the last element under the stable ascending sort. -/
theorem rs_sts_bridge (rs : List ℚ) (hne : rs ≠ []) :
    (rs.length - 1, calculate_rs_sts_percentile rs) ∈
      calculate_percentile_ranking (rs.enum.map (fun p => (p.1, PyNum.num p.2))) := by
  have npos : 0 < rs.length := List.length_pos.2 hne
  have hval := validEntries_enum rs
  have hvne : rs.enum ≠ [] := by
    intro h
    have h2 := congrArg List.length h
    simp only [List.enum_length, List.length_nil] at h2
    omega
  have hemp : (validEntries (rs.enum.map (fun p => (p.1, PyNum.num p.2)))).isEmpty
      = false := by
    rw [hval]
    exact isEmpty_false_of_ne_nil hvne
  rw [mem_ranking_iff hemp, hval]
  have hperm : (rs.enum.mergeSort leVal).Perm rs.enum := List.mergeSort_perm _ _
  have hsort : (rs.enum.mergeSort leVal).Pairwise (fun a b => leVal a b) :=
    List.sorted_mergeSort leVal_trans leVal_total _
  have hslen : (rs.enum.mergeSort leVal).length = rs.length := by
    rw [hperm.length_eq, List.enum_length]
  have hvnodup : rs.enum.Nodup := by
    apply List.Nodup.of_map Prod.fst
    rw [List.enum_map_fst]
    exact List.nodup_range _
  have hsnodup : (rs.enum.mergeSort leVal).Nodup := hvnodup.perm hperm.symm
  have hlenpos : rs.length - 1 < rs.length := by omega
  have hlast : rs.getLastD 0 = rs[rs.length - 1] := by
    rw [List.getLastD_eq_getLast?, List.getLast?_eq_getElem?,
      List.getElem?_eq_getElem hlenpos]
    rfl
  have he_mem_valid : ((rs.length - 1, rs.getLastD 0) : ℕ × ℚ) ∈ rs.enum := by
    apply List.mem_iff_getElem.2
    refine ⟨rs.length - 1, by rw [List.enum_length]; omega, ?_⟩
    rw [List.getElem_enum, hlast]
  have he_mem_s : ((rs.length - 1, rs.getLastD 0) : ℕ × ℚ)
      ∈ rs.enum.mergeSort leVal := by
    rw [List.mem_mergeSort]
    exact he_mem_valid
  obtain ⟨i, hi, hsi⟩ := List.mem_iff_getElem.1 he_mem_s
  -- the tied block: all entries whose value equals the last value, in input order
  have hcpw : (rs.enum.filter (fun p => decide (p.2 = rs.getLastD 0))).Pairwise
      (fun a b => leVal a b) := by
    rw [List.pairwise_iff_getElem]
    intro a b ha hb hab
    have hxa := List.mem_filter.1 (List.getElem_mem ha)
    have hxb := List.mem_filter.1 (List.getElem_mem hb)
    simp only [decide_eq_true_eq] at hxa hxb
    simp only [leVal, decide_eq_true_eq, hxa.2, hxb.2]
    exact le_refl _
  have hcsub : List.Sublist (rs.enum.filter (fun p => decide (p.2 = rs.getLastD 0)))
      (rs.enum.mergeSort leVal) :=
    List.sublist_mergeSort leVal_trans leVal_total hcpw (List.filter_sublist _)
  have hgl : rs.enum.getLast hvne = ((rs.length - 1 : ℕ), rs.getLastD 0) := by
    rw [List.getLast_eq_getElem]
    simp only [List.enum_length]
    rw [List.getElem_enum, hlast]
  have hc_decomp : rs.enum.filter (fun p => decide (p.2 = rs.getLastD 0))
      = (rs.enum.dropLast.filter (fun p => decide (p.2 = rs.getLastD 0)))
        ++ [((rs.length - 1 : ℕ), rs.getLastD 0)] := by
    conv_lhs => rw [← List.dropLast_concat_getLast hvne]
    rw [List.filter_append, hgl]
    congr 1
    simp [List.filter]
  -- count of (≤ last) in the sorted list is exactly i + 1
  have hcount : (rs.enum.mergeSort leVal).countP
      (fun p => decide (p.2 ≤ rs.getLastD 0)) = i + 1 := by
    conv_lhs => rw [← List.take_append_drop (i + 1) (rs.enum.mergeSort leVal)]
    rw [List.countP_append]
    have htake : ((rs.enum.mergeSort leVal).take (i + 1)).countP
        (fun p => decide (p.2 ≤ rs.getLastD 0)) = i + 1 := by
      rw [List.countP_eq_length.2, List.length_take]
      · omega
      · intro x hx
        obtain ⟨j, hj, hxj⟩ := List.mem_iff_getElem.1 hx
        rw [List.getElem_take] at hxj
        have hji : j ≤ i := by
          rw [List.length_take] at hj
          omega
        rcases Nat.lt_or_ge j i with hlt | hge
        · have hpw := List.pairwise_iff_getElem.1 hsort j i
            (by rw [List.length_take] at hj; omega) hi hlt
          simp only [leVal, decide_eq_true_eq] at hpw
          rw [hsi, hxj] at hpw
          simpa using hpw
        · have hji2 : j = i := by omega
          subst hji2
          rw [hsi] at hxj
          rw [← hxj]
          simp
    have hdrop : ((rs.enum.mergeSort leVal).drop (i + 1)).countP
        (fun p => decide (p.2 ≤ rs.getLastD 0)) = 0 := by
      rw [List.countP_eq_zero]
      intro x hx hpx
      obtain ⟨j, hj, hxj⟩ := List.mem_iff_getElem.1 hx
      rw [List.getElem_drop] at hxj
      have hjlt : i + 1 + j < (rs.enum.mergeSort leVal).length := by
        rw [List.length_drop] at hj
        omega
      have hpw := List.pairwise_iff_getElem.1 hsort i (i + 1 + j) hi hjlt
        (by omega)
      simp only [leVal, decide_eq_true_eq] at hpw
      rw [hsi, hxj] at hpw
      simp only [decide_eq_true_eq] at hpx
      have hxeq : x.2 = rs.getLastD 0 := le_antisymm hpx hpw
      have hxs : x ∈ rs.enum.mergeSort leVal := by
        rw [← hxj]
        exact List.getElem_mem _
      have hxc : x ∈ rs.enum.filter (fun p => decide (p.2 = rs.getLastD 0)) :=
        List.mem_filter.2 ⟨hperm.mem_iff.1 hxs, by simp [hxeq]⟩
      rw [hc_decomp] at hxc
      rcases List.mem_append.1 hxc with hxc1 | hxe
      · -- x sits strictly before the last element inside the tied block,
        -- so by stability it sits before position i in the sorted list
        have hsub2 : List.Sublist [x, ((rs.length - 1 : ℕ), rs.getLastD 0)]
            ((rs.enum.dropLast.filter (fun p => decide (p.2 = rs.getLastD 0)))
              ++ [((rs.length - 1 : ℕ), rs.getLastD 0)]) :=
          List.Sublist.append (List.singleton_sublist.2 hxc1) (List.Sublist.refl _)
        have hsub3 : List.Sublist [x, ((rs.length - 1 : ℕ), rs.getLastD 0)]
            (rs.enum.mergeSort leVal) := by
          rw [hc_decomp] at hcsub
          exact hsub2.trans hcsub
        obtain ⟨is, his, hispw⟩ := List.sublist_eq_map_getElem hsub3
        rcases is with _ | ⟨i₁, is1⟩
        · simp at his
        rcases is1 with _ | ⟨i₂, is2⟩
        · simp at his
        rcases is2 with _ | ⟨i₃, is3⟩
        case cons.cons.cons => simp at his
        simp only [List.map_cons, List.map_nil, List.cons.injEq, and_true,
          Fin.getElem_fin] at his
        have hpw12 : (i₁ : ℕ) < (i₂ : ℕ) := by
          have h12 := List.pairwise_iff_getElem.1 hispw 0 1 (by simp) (by simp)
            (by omega)
          simpa using h12
        have hi₂ : (i₂ : ℕ) = i := by
          apply (hsnodup.getElem_inj_iff).1
          rw [hsi, ← his.2]
        have hi₁ : (i₁ : ℕ) = i + 1 + j := by
          apply (hsnodup.getElem_inj_iff).1
          rw [hxj, ← his.1]
        omega
      · have hxe2 : x = ((rs.length - 1 : ℕ), rs.getLastD 0) := by
          simpa using hxe
        have : i + 1 + j = i := by
          apply (hsnodup.getElem_inj_iff).1
          rw [hxj, hxe2, hsi]
        omega
    rw [htake, hdrop]
  -- transfer the count to the raw series
  have hcnt2 : rs.countP (fun v => decide (v ≤ rs.getLastD 0)) = i + 1 := by
    have h1 : ∀ q : ℚ → Bool, rs.enum.countP (fun p => q p.2) = rs.countP q := by
      intro q
      conv_rhs => rw [← List.enum_map_snd rs]
      rw [List.countP_map]
      rfl
    rw [← h1 (fun v => decide (v ≤ rs.getLastD 0)), ← hperm.countP_eq, hcount]
  refine ⟨i, hi, ?_⟩
  have hfst : ((rs.enum.mergeSort leVal).get ⟨i, hi⟩).1 = rs.length - 1 := by
    simp only [List.get_eq_getElem]
    rw [hsi]
  have hsts : calculate_rs_sts_percentile rs
      = round2 (((i : ℚ) + 1) / ((rs.enum.length : ℕ) : ℚ) * 100) := by
    unfold calculate_rs_sts_percentile
    rw [if_neg (by simp [isEmpty_false_of_ne_nil hne])]
    rw [hcnt2, List.enum_length]
    congr 1
    push_cast
    ring
  rw [Prod.ext_iff]
  exact ⟨hfst.symm, hsts⟩

theorem crs_length (bench tick : List (ℕ × ℚ)) (rs : List ℚ)
    (h : calculate_relative_strength (some bench) (some tick) 25 = some rs) :
    rs.length = 25 := by
  dsimp only [calculate_relative_strength] at h
  by_cases he : (innerMerge bench tick).isEmpty
  · rw [if_pos he] at h
    exact absurd h (by simp)
  · rw [if_neg he] at h
    by_cases hz : (if 25 < (innerMerge bench tick).length
        then tailN 25 (innerMerge bench tick) else innerMerge bench tick).length < 25
    · rw [if_pos hz] at h
      exact absurd h (by simp)
    · rw [if_neg hz] at h
      by_cases ha : (if 25 < (innerMerge bench tick).length
          then tailN 25 (innerMerge bench tick)
          else innerMerge bench tick).any (fun p => decide (p.1 = 0))
      · rw [if_pos ha] at h
        exact absurd h (by simp)
      · rw [if_neg ha] at h
        have h2 := Option.some.inj h
        rw [← h2, List.length_map]
        by_cases h25 : 25 < (innerMerge bench tick).length
        · rw [if_pos h25]
          rw [if_pos h25] at hz
          unfold tailN at hz ⊢
          rw [List.length_drop] at hz ⊢
          omega
        · rw [if_neg h25]
          rw [if_neg h25] at hz
          omega

/-- Claim C9: with fewer than 25 matching trading dates the RS-STS is `None`;
whenever it is a value `v`, `v` is the §4.3 percentile-ranking entry of the
most recent ratio (index 24) within the 25-value ratio series; and the
screeners' RS-STS gate rejects 79.99 and accepts 80.00. -/
theorem rs_sts_spec :
    (∀ bench tick : List (ℕ × ℚ), (innerMerge bench tick).length < 25 →
      get_rs_sts_percentile (some bench) (some tick) = none) ∧
    (∀ (bench tick : List (ℕ × ℚ)) (v : ℚ),
      get_rs_sts_percentile (some bench) (some tick) = some v →
      ∃ rs : List ℚ,
        calculate_relative_strength (some bench) (some tick) 25 = some rs ∧
        rs.length = 25 ∧ v = calculate_rs_sts_percentile rs ∧
        ((24 : ℕ), v) ∈ calculate_percentile_ranking
          (rs.enum.map (fun p => (p.1, PyNum.num p.2)))) ∧
    (rsStsGate (some (7999 / 100)) = false ∧ rsStsGate (some 80) = true ∧
      rsStsGate none = false) := by
  refine ⟨?_, ?_, ?_, ?_, rfl⟩
  · intro bench tick hlen
    dsimp only [get_rs_sts_percentile]
    by_cases hg : bench.length < 25 ∨ tick.length < 25
    · rw [if_pos hg]
    · rw [if_neg hg]
      have hcrs : calculate_relative_strength (some bench) (some tick) 25 = none := by
        dsimp only [calculate_relative_strength]
        by_cases he : (innerMerge bench tick).isEmpty
        · rw [if_pos he]
        · rw [if_neg he]
          have h25 : ¬ 25 < (innerMerge bench tick).length := by omega
          rw [if_neg h25, if_pos hlen]
      rw [hcrs]
  · intro bench tick v h
    dsimp only [get_rs_sts_percentile] at h
    by_cases hg : bench.length < 25 ∨ tick.length < 25
    · rw [if_pos hg] at h
      exact absurd h (by simp)
    · rw [if_neg hg] at h
      cases hcrs : calculate_relative_strength (some bench) (some tick) 25 with
      | none =>
        rw [hcrs] at h
        exact absurd h (by simp)
      | some rs =>
        rw [hcrs] at h
        have hv := Option.some.inj h
        have hlen25 : rs.length = 25 := crs_length bench tick rs hcrs
        have hne : rs ≠ [] := by
          intro h2
          rw [h2] at hlen25
          simp at hlen25
        refine ⟨rs, rfl, hlen25, hv.symm, ?_⟩
        have hb := rs_sts_bridge rs hne
        rw [hlen25] at hb
        rw [← hv]
        simpa using hb
  · simp only [rsStsGate, decide_eq_false_iff_not, not_not]
    norm_num
  · simp only [rsStsGate, decide_eq_true_eq]
    norm_num

/-- A 25-day price history with constant close 1 on dates 0..24. -/
def constSeries (n : ℕ) : List (ℕ × ℚ) := (List.range n).map (fun i => (i, (1 : ℚ)))

theorem lookup_range_map_const :
    ∀ (m a i : ℕ), a ≤ i → i < a + m →
      (((List.range' a m).map (fun j => (j, (1 : ℚ)))).lookup i) = some 1
  | 0, a, i, h1, h2 => by omega
  | m + 1, a, i, h1, h2 => by
    rw [List.range'_succ, List.map_cons]
    by_cases hia : i = a
    · subst hia
      simp [List.lookup]
    · have hb : (i == a) = false := by simp [hia]
      simp only [List.lookup, hb]
      exact lookup_range_map_const m (a + 1) i (by omega) (by omega)

theorem lookup_constSeries (i : ℕ) (h : i < 25) :
    (constSeries 25).lookup i = some 1 := by
  unfold constSeries
  rw [List.range_eq_range']
  exact lookup_range_map_const 25 0 i (by omega) (by omega)

theorem innerMerge_const_aux :
    ∀ (m a : ℕ), a + m ≤ 25 →
      (((List.range' a m).map (fun i => (i, (1 : ℚ)))).filterMap
        (fun p => ((constSeries 25).lookup p.1).map (fun tc => (p.2, tc))))
      = List.replicate m ((1 : ℚ), (1 : ℚ))
  | 0, a, h => rfl
  | m + 1, a, h => by
    rw [List.range'_succ, List.map_cons, List.filterMap_cons]
    rw [lookup_constSeries a (by omega)]
    simp only [Option.map_some]
    rw [innerMerge_const_aux m (a + 1) (by omega)]
    rfl

theorem innerMerge_const :
    innerMerge (constSeries 25) (constSeries 25) = List.replicate 25 ((1 : ℚ), 1) := by
  unfold innerMerge
  conv_lhs => rw [show constSeries 25 = (List.range' 0 25).map (fun i => (i, (1 : ℚ)))
    from by unfold constSeries; rw [List.range_eq_range']]
  exact innerMerge_const_aux 25 0 (by omega)

theorem crs_const :
    calculate_relative_strength (some (constSeries 25)) (some (constSeries 25)) 25
      = some (List.replicate 25 (1 : ℚ)) := by
  dsimp only [calculate_relative_strength]
  rw [innerMerge_const]
  norm_num [tailN]

theorem sts_const :
    calculate_rs_sts_percentile (List.replicate 25 (1 : ℚ)) = 100 := by
  unfold calculate_rs_sts_percentile
  rw [if_neg (by simp)]
  have hlast : (List.replicate 25 (1 : ℚ)).getLastD 0 = 1 := by
    rw [List.getLastD_eq_getLast?, List.getLast?_eq_getElem?]
    rw [List.getElem?_eq_getElem (by simp)]
    simp
  rw [hlast, List.countP_replicate]
  rw [if_pos (by norm_num)]
  simp only [List.length_replicate]
  rw [show ((25 : ℕ) : ℚ) / ((25 : ℕ) : ℚ) * 100 = 100 by norm_num]
  exact round2_hundred

theorem get_rs_sts_const :
    get_rs_sts_percentile (some (constSeries 25)) (some (constSeries 25))
      = some 100 := by
  dsimp only [get_rs_sts_percentile]
  rw [if_neg (by unfold constSeries; simp)]
  rw [crs_const]
  show some (calculate_rs_sts_percentile (List.replicate 25 (1 : ℚ))) = some 100
  rw [sts_const]

/-- Witness for Claim C9: empty histories (0 matching dates) give `None`; the
constant 25-day series yields RS-STS 100, which is the §4.3 percentile entry
of index 24 in its own ratio series; the gate accepts 80. -/
theorem rs_sts_spec_witness :
    get_rs_sts_percentile (some []) (some []) = none ∧
    (∃ rs : List ℚ,
      calculate_relative_strength (some (constSeries 25))
        (some (constSeries 25)) 25 = some rs ∧
      rs.length = 25 ∧ (100 : ℚ) = calculate_rs_sts_percentile rs ∧
      ((24 : ℕ), (100 : ℚ)) ∈ calculate_percentile_ranking
        (rs.enum.map (fun p => (p.1, PyNum.num p.2)))) ∧
    rsStsGate (some 80) = true := by
  refine ⟨?_, ?_, rs_sts_spec.2.2.2.1⟩
  · apply rs_sts_spec.1
    show (List.filterMap _ []).length < 25
    simp
  · exact rs_sts_spec.2.1 (constSeries 25) (constSeries 25) 100 get_rs_sts_const

end MarketAlgoX
